import Mathlib

/-!
Shallow embedding of `govuk_bank_holidays/bank_holidays.py` (the
`BankHolidays` class) and proofs about its query methods.

Conventions used throughout:

* a `datetime.date` is represented by its proleptic-Gregorian ordinal
  (`datetime.date.toordinal`), an integer: day 1 is 1 January of year 1;
* division identifiers (`Division` is a `str`-valued enum, so each member
  hashes and compares as its string value) are represented by `String`;
  a `DivisionType` argument (`Division`, `str` or `None`) is `Option String`;
* Python exceptions are modelled by `Except PyError`;
* the per-instance memoization cache `_get_known_holiday_date_set_cache`
  is threaded explicitly through the operations that touch it;
* the unbounded `while True` loops of `get_next_work_day` and
  `get_prev_work_day` take an explicit fuel argument, `Except.ok none`
  standing for "the loop has not yet produced a result".
-/

instance {ε : Type u} {α : Type v} [DecidableEq ε] [DecidableEq α] : DecidableEq (Except ε α) :=
  fun x y =>
    match x, y with
    | .ok a, .ok b =>
      match decEq a b with
      | isTrue h => isTrue (congrArg Except.ok h)
      | isFalse h => isFalse (fun hc => h (Except.ok.inj hc))
    | .error e, .error f =>
      match decEq e f with
      | isTrue h => isTrue (congrArg Except.error h)
      | isFalse h => isFalse (fun hc => h (Except.error.inj hc))
    | .ok _, .error _ => isFalse (fun hc => Except.noConfusion hc)
    | .error _, .ok _ => isFalse (fun hc => Except.noConfusion hc)

/-- The `datetime.date.weekday` method: 0 is Monday, …, 6 is Sunday.
Ordinal 1 (1 January of year 1) is a Monday. -/
def weekday (d : Int) : Int :=
  (d - 1) % 7

/-- The `datetime.date.year` field of the date with ordinal `d`, following
CPython's `_ord2ymd` (the divisor constants are the day counts of 400, 100,
4 and 1 Gregorian years). -/
def yearOf (d : Int) : Int :=
  let n := d - 1
  let n400 := n / 146097
  let r400 := n % 146097
  let n100 := r400 / 36524
  let r100 := r400 % 36524
  let n4 := r100 / 1461
  let r4 := r100 % 1461
  let n1 := r4 / 365
  let year := n400 * 400 + n100 * 100 + n4 * 4 + n1 + 1
  if n1 = 4 ∨ n100 = 4 then year - 1 else year

/-- The `BankHoliday` dataclass: `title`, `date`, `notes`, `bunting`. -/
structure BankHoliday where
  title : String
  date : Int
  notes : String := ""
  bunting : Bool := false
  deriving DecidableEq

/-- Python exceptions that the embedded code can raise. -/
inductive PyError where
  | keyError (key : String)
  | typeError
  | valueError (msg : String)
  deriving DecidableEq

/-- The class of a Python exception, used to compare errors by kind. -/
inductive PyErrorKind where
  | keyError
  | typeError
  | valueError
  deriving DecidableEq

/-- The class (kind) of an exception, forgetting its payload. -/
def PyError.kind : PyError → PyErrorKind
  | .keyError _ => .keyError
  | .typeError => .typeError
  | .valueError _ => .valueError

/-- The values of the `Division` enumeration: `Division(k)` succeeds exactly
for these strings. -/
def validDivisions : List String :=
  ["england-and-wales", "scotland", "northern-ireland"]

/-- `self._data`: the mapping from division identifier to that division's
holiday list, modelled as an association list (Python dict keys are unique
and `Division` members compare as their string values). -/
abbrev Store := List (String × List BankHoliday)

/-- Dictionary lookup `self._data[division]` (without the `KeyError`). -/
def lookupDiv (store : Store) (k : String) : Option (List BankHoliday) :=
  (store.find? (fun p => p.1 == k)).map Prod.snd

/-- `set(map(lambda holiday: holiday.date, holidays))`. -/
def dateSet (hs : List BankHoliday) : Finset Int :=
  (hs.map (fun h => h.date)).toFinset

/-- The ordering used by `sorted(..., key=lambda holiday: holiday.date)`. -/
def holidayLE (a b : BankHoliday) : Prop :=
  a.date ≤ b.date

instance : DecidableRel holidayLE :=
  fun a b => inferInstanceAs (Decidable (a.date ≤ b.date))

instance : IsTotal BankHoliday holidayLE :=
  ⟨fun a b => Int.le_total a.date b.date⟩

instance : IsTrans BankHoliday holidayLE :=
  ⟨fun _ _ _ h1 h2 => le_trans h1 h2⟩

/-- `sorted(holidays, key=lambda holiday: holiday.date)`: Python's `sorted`
is a stable ascending sort, as is insertion sort. -/
def sortHolidays (hs : List BankHoliday) : List BankHoliday :=
  List.insertionSort holidayLE hs

/-- Construction of `self._data` (`BankHolidays.__init__`, lines 150-154):
each key of the payload passes through `Division(division)`, which raises
`ValueError` on a string that is not a member of the enumeration, and each
division's parsed holiday list is sorted ascending by date.  The per-record
parsing (`map_holiday`, lines 138-148) is deterministic and is abstracted by
taking the already-parsed per-division lists as input. -/
def mkData (data : List (String × List BankHoliday)) : Except PyError Store :=
  if data.all (fun p => validDivisions.contains p.1) then
    .ok (data.map (fun p => (p.1, sortHolidays p.2)))
  else
    .error (.valueError "is not a valid Division")

/-- `functools.reduce(set.intersection, ...)` over every division's date set
(`get_holidays`, lines 175-181); `none` models the `TypeError` that `reduce`
raises when the store is empty. -/
def commonDates (store : Store) : Option (Finset Int) :=
  match store.map (fun p => dateSet p.2) with
  | [] => none
  | s :: rest => some (rest.foldl (fun a b => a ∩ b) s)

/-- The no-division branch of `get_holidays` (lines 173-182): take the
England-and-Wales list and keep the holidays whose date every division has. -/
def commonList (store : Store) : Except PyError (List BankHoliday) :=
  match lookupDiv store "england-and-wales" with
  | none => .error (.keyError "england-and-wales")
  | some ew =>
    match commonDates store with
    | none => .error .typeError
    | some ds => .ok (ew.filter (fun h => decide (h.date ∈ ds)))

/-- The `if year:` filter of `get_holidays` (lines 183-184): Python treats
`None` and `0` as falsy, so both leave the list unfiltered. -/
def applyYearFilter (year : Option Int) (hs : List BankHoliday) : List BankHoliday :=
  match year with
  | none => hs
  | some y => if y = 0 then hs else hs.filter (fun h => yearOf h.date == y)

/-- The `holidays` variable of `get_holidays` before the year filter
(lines 171-182).  `if division:` is Python truthiness: `None` and the empty
string select the common branch; a truthy identifier is looked up in the
store, raising `KeyError` when absent. -/
def baseHolidays (store : Store) (division : Option String) :
    Except PyError (List BankHoliday) :=
  match division with
  | none => commonList store
  | some dv =>
    if dv = "" then commonList store
    else
      match lookupDiv store dv with
      | some hs => Except.ok hs
      | none => Except.error (PyError.keyError dv)

/-- Reduction of `baseHolidays` at `none`. -/
lemma baseHolidays_none (store : Store) : baseHolidays store none = commonList store := rfl

/-- Reduction of `baseHolidays` at `some dv`. -/
lemma baseHolidays_some (store : Store) (dv : String) :
    baseHolidays store (some dv) =
      if dv = "" then commonList store
      else
        match lookupDiv store dv with
        | some hs => Except.ok hs
        | none => Except.error (PyError.keyError dv) := rfl

/-- `BankHolidays.get_holidays` (lines 163-185). -/
def get_holidays (store : Store) (division : Option String) (year : Option Int) :
    Except PyError (List BankHoliday) :=
  (baseHolidays store division).map (applyYearFilter year)

/-- The memoization cache `self._get_known_holiday_date_set_cache`, keyed by
the `division` argument value (`None` and `''` are distinct dict keys). -/
abbrev Cache := List (Option String × Finset Int)

/-- Dictionary lookup in the memoization cache. -/
def lookupCache (c : Cache) (k : Option String) : Option (Finset Int) :=
  (c.find? (fun p => p.1 == k)).map Prod.snd

/-- `BankHolidays._get_known_holiday_date_set` (lines 187-197): on a cache
miss the date set is computed from `get_holidays` and stored; on a raised
exception the cache is left untouched. -/
def get_known_holiday_date_set (store : Store) (cache : Cache) (division : Option String) :
    Except PyError (Finset Int × Cache) :=
  match lookupCache cache division with
  | some s => .ok (s, cache)
  | none =>
    match get_holidays store division none with
    | .error e => .error e
    | .ok hs => .ok (dateSet hs, (division, dateSet hs) :: cache)

/-- `BankHolidays.is_holiday` (lines 199-207). -/
def is_holiday (store : Store) (cache : Cache) (date : Int) (division : Option String) :
    Except PyError (Bool × Cache) :=
  match get_known_holiday_date_set store cache division with
  | .error e => .error e
  | .ok (s, c) => .ok (decide (date ∈ s), c)

/-- `BankHolidays.is_work_day` (lines 209-217): note that `and` short-circuits,
so on a weekend day the date-set cache is not consulted at all. -/
def is_work_day (weekend : Finset Int) (store : Store) (cache : Cache) (date : Int)
    (division : Option String) : Except PyError (Bool × Cache) :=
  if weekday date ∈ weekend then .ok (false, cache)
  else
    match get_known_holiday_date_set store cache division with
    | .error e => .error e
    | .ok (s, c) => .ok (decide (date ∉ s), c)

/-- The `for` loop of `get_next_holiday` (lines 229-231): the first holiday in
list order whose date is strictly after `date`, if any. -/
def firstAfter (date : Int) : List BankHoliday → Option BankHoliday
  | [] => none
  | h :: hs => if date < h.date then some h else firstAfter date hs

/-- `BankHolidays.get_next_holiday` (lines 219-231); it calls `get_holidays`
directly, so the memoization cache is not involved. -/
def get_next_holiday (store : Store) (division : Option String) (date : Int) :
    Except PyError (Option BankHoliday) :=
  (get_holidays store division none).map (firstAfter date)

/-- `BankHolidays.get_next_work_day` (lines 247-260): the unbounded
`while True` loop run for at most `fuel` iterations; `Except.ok none` means
the loop was still running when the fuel ran out. -/
def get_next_work_day (weekend : Finset Int) (store : Store) (cache : Cache)
    (division : Option String) (date : Int) : Nat → Except PyError (Option (Int × Cache))
  | 0 => .ok none
  | fuel + 1 =>
    match is_work_day weekend store cache (date + 1) division with
    | .error e => .error e
    | .ok (true, c) => .ok (some (date + 1, c))
    | .ok (false, c) => get_next_work_day weekend store c division (date + 1) fuel

/-- `BankHolidays.get_prev_work_day` (lines 262-275), fuelled like
`get_next_work_day`. -/
def get_prev_work_day (weekend : Finset Int) (store : Store) (cache : Cache)
    (division : Option String) (date : Int) : Nat → Except PyError (Option (Int × Cache))
  | 0 => .ok none
  | fuel + 1 =>
    match is_work_day weekend store cache (date - 1) division with
    | .error e => .error e
    | .ok (true, c) => .ok (some (date - 1, c))
    | .ok (false, c) => get_prev_work_day weekend store c division (date - 1) fuel

/-- The pure work-day test once the division's date set `s` is known. -/
def workDayPred (weekend : Finset Int) (s : Finset Int) (d : Int) : Bool :=
  !(decide (weekday d ∈ weekend)) && !(decide (d ∈ s))

/-- The pure form of the `get_next_work_day` loop over a fixed date set. -/
def nextLoop (weekend : Finset Int) (s : Finset Int) (date : Int) : Nat → Option Int
  | 0 => none
  | fuel + 1 =>
    if workDayPred weekend s (date + 1) then some (date + 1)
    else nextLoop weekend s (date + 1) fuel

/-- The pure form of the `get_prev_work_day` loop over a fixed date set. -/
def prevLoop (weekend : Finset Int) (s : Finset Int) (date : Int) : Nat → Option Int
  | 0 => none
  | fuel + 1 =>
    if workDayPred weekend s (date - 1) then some (date - 1)
    else prevLoop weekend s (date - 1) fuel

/-- One query's effect on the memoization cache: the cache left behind by
`_get_known_holiday_date_set` (unchanged when the call raises). -/
def cacheStep (store : Store) (c : Cache) (division : Option String) : Cache :=
  match get_known_holiday_date_set store c division with
  | .ok (_, c2) => c2
  | .error _ => c

/-- The cache after an arbitrary sequence of prior queries on a freshly
constructed instance (every cache mutation goes through
`_get_known_holiday_date_set`, so a call sequence is summarised by the
division arguments passed). -/
def cacheAfter (store : Store) (calls : List (Option String)) : Cache :=
  calls.foldl (cacheStep store) []

/-- `FetchError`: `requests.RequestException` (transport failure) or the
`ValueError` raised by `.json()` on a body that is not JSON — exactly the
exceptions caught by `BankHolidays.__init__` (line 118). -/
inductive FetchError where
  | requestException
  | jsonValueError
  deriving DecidableEq

/-- Lines 112-120 of `BankHolidays.__init__`: choose the raw data the
instance is built from.  The function is total: a failed fetch never
escapes, it selects the bundled backup data instead. -/
def loadData (α : Type) (useCached : Bool) (fetch : Except FetchError α) (backup : α) : α :=
  if useCached then backup
  else
    match fetch with
    | .ok d => d
    | .error _ => backup

/-- Construction end to end: pick the raw data (lines 112-120), then build
the division store (lines 150-154). -/
def constructStore (useCached : Bool) (fetch : Except FetchError (List (String × List BankHoliday)))
    (backup : List (String × List BankHoliday)) : Except PyError Store :=
  mkData (loadData _ useCached fetch backup)

/-! ### Concrete instances used by witnesses and counterexamples -/

/-- A small England-and-Wales holiday list (dates are ordinals; ordinal 8 is a
Monday). -/
def ewA : List BankHoliday :=
  [⟨"New Year", 8, "", true⟩, ⟨"Spring", 15, "", true⟩, ⟨"Christmas", 22, "", false⟩]

/-- A small Scotland holiday list. -/
def scoA : List BankHoliday :=
  [⟨"New Year", 8, "", true⟩, ⟨"Jan 2nd", 9, "", false⟩, ⟨"Christmas", 22, "", false⟩]

/-- A small Northern-Ireland holiday list. -/
def niA : List BankHoliday :=
  [⟨"New Year", 8, "", true⟩, ⟨"St Patrick", 17, "", true⟩, ⟨"Christmas", 22, "", false⟩]

/-- A fully populated store (all three divisions). -/
def storeA : Store :=
  [("england-and-wales", ewA), ("scotland", scoA), ("northern-ireland", niA)]

/-- The common holidays of `storeA` (dates 8 and 22 occur in every division). -/
def commonA : List BankHoliday :=
  [⟨"New Year", 8, "", true⟩, ⟨"Christmas", 22, "", false⟩]

/-- A store in which Northern Ireland has no data. -/
def storeEW2 : Store :=
  [("england-and-wales", ewA), ("scotland", scoA)]

/-- A constructed store whose England-and-Wales list holds two holidays on the
same date, each of which is a holiday of every division. -/
def storeDup : Store :=
  [("england-and-wales", [⟨"A", 8, "", false⟩, ⟨"B", 8, "", false⟩]),
   ("scotland", [⟨"C", 8, "", false⟩]),
   ("northern-ireland", [⟨"D", 8, "", false⟩])]

/-- The default weekend set: Saturday (5) and Sunday (6). -/
def weekendW : Finset Int := {5, 6}

/-- The memoization cache after one cache miss on the common holidays of
`storeA`. -/
def cacheW : Cache := [(none, ({8, 22} : Finset Int))]

/-! ### Helper lemmas -/

/-- Membership in a left fold of finite-set intersections. -/
lemma mem_foldl_inter (l : List (Finset Int)) (init : Finset Int) (d : Int) :
    d ∈ l.foldl (fun a b => a ∩ b) init ↔ d ∈ init ∧ ∀ t ∈ l, d ∈ t := by
  induction l generalizing init with
  | nil => simp
  | cons s rest ih =>
    simp only [List.foldl_cons, ih, Finset.mem_inter, List.mem_cons]
    constructor
    · rintro ⟨⟨h1, h2⟩, h3⟩
      exact ⟨h1, fun t ht => ht.elim (fun he => he ▸ h2) (h3 t)⟩
    · rintro ⟨h1, h2⟩
      exact ⟨⟨h1, h2 s (Or.inl rfl)⟩, fun t ht => h2 t (Or.inr ht)⟩

/-- A date is in `commonDates store` exactly when every division of the store
has it. -/
lemma mem_commonDates {store : Store} {s : Finset Int} (h : commonDates store = some s)
    (d : Int) : d ∈ s ↔ ∀ p ∈ store, d ∈ dateSet p.2 := by
  cases store with
  | nil => simp [commonDates] at h
  | cons q rest =>
    simp only [commonDates, List.map_cons, Option.some.injEq] at h
    subst h
    rw [mem_foldl_inter]
    simp only [List.mem_cons, List.forall_mem_map]
    constructor
    · rintro ⟨h1, h2⟩ p hp
      exact hp.elim (fun he => he ▸ h1) (h2 p)
    · rintro h1
      exact ⟨h1 q (Or.inl rfl), fun p hp => h1 p (Or.inr hp)⟩

/-- A successful store lookup locates an entry of the store. -/
lemma lookupDiv_mem {store : Store} {k : String} {l : List BankHoliday}
    (h : lookupDiv store k = some l) : (k, l) ∈ store := by
  unfold lookupDiv at h
  cases hf : store.find? (fun p => p.1 == k) with
  | none => rw [hf] at h; simp at h
  | some p =>
    obtain ⟨a, b⟩ := p
    rw [hf] at h
    simp only [Option.map_some', Option.some.injEq] at h
    have hm := List.mem_of_find?_eq_some hf
    have hk := List.find?_some hf
    simp only [beq_iff_eq] at hk
    subst hk
    subst h
    exact hm

/-- A successful cache lookup locates an entry of the cache. -/
lemma lookupCache_mem {c : Cache} {k : Option String} {s : Finset Int}
    (h : lookupCache c k = some s) : (k, s) ∈ c := by
  unfold lookupCache at h
  cases hf : c.find? (fun p => p.1 == k) with
  | none => rw [hf] at h; simp at h
  | some p =>
    obtain ⟨a, b⟩ := p
    rw [hf] at h
    simp only [Option.map_some', Option.some.injEq] at h
    have hm := List.mem_of_find?_eq_some hf
    have hk := List.find?_some hf
    simp only [beq_iff_eq] at hk
    subst hk
    subst h
    exact hm

/-- Insertion sort by date really sorts. -/
lemma sortHolidays_sorted (l : List BankHoliday) : (sortHolidays l).Sorted holidayLE :=
  List.sorted_insertionSort holidayLE l

/-- Every division list of a constructed store is sorted ascending by date. -/
lemma mkData_sorted {data : List (String × List BankHoliday)} {store : Store}
    (h : mkData data = .ok store) {dv : String} {l : List BankHoliday}
    (hmem : (dv, l) ∈ store) : l.Sorted holidayLE := by
  unfold mkData at h
  split at h
  · simp only [Except.ok.injEq] at h
    subst h
    obtain ⟨p, _, hp⟩ := List.mem_map.mp hmem
    obtain ⟨h1, h2⟩ := Prod.mk.injEq .. ▸ hp
    rw [← h2]
    exact sortHolidays_sorted p.2
  · simp at h

/-- The no-division branch of `get_holidays` evaluated: the England-and-Wales
list filtered to the dates that every division of the store has. -/
lemma get_holidays_none_eq {store : Store} {ewList : List BankHoliday}
    (hEW : lookupDiv store "england-and-wales" = some ewList) :
    get_holidays store none none =
      .ok (ewList.filter (fun h => decide (∀ p ∈ store, h.date ∈ dateSet p.2))) := by
  have hne : store ≠ [] := by
    intro he
    rw [he] at hEW
    simp [lookupDiv] at hEW
  cases hst : store with
  | nil => exact absurd hst hne
  | cons q rest =>
    have hcd : commonDates (q :: rest) = some ((rest.map (fun p => dateSet p.2)).foldl
        (fun a b => a ∩ b) (dateSet q.2)) := by
      simp [commonDates]
    rw [hst] at hEW
    unfold get_holidays baseHolidays commonList
    rw [hEW, hcd]
    simp only [Except.map, applyYearFilter, Except.ok.injEq]
    apply List.filter_congr
    intro x _
    have := mem_commonDates hcd x.date
    exact decide_eq_decide.mpr (this.trans Iff.rfl)

/-! ### Claim theorems -/

/-- C1.  With no division, `get_holidays` returns exactly the holidays of the
England-and-Wales list whose dates occur in every division present in the
store, in England-and-Wales list order, keeping England-and-Wales's title,
notes and bunting (the result is a filter of that very list). -/
theorem get_holidays_common_spec (store : Store) (ewList : List BankHoliday)
    (hEW : lookupDiv store "england-and-wales" = some ewList) :
    get_holidays store none none =
      .ok (ewList.filter (fun h => decide (∀ p ∈ store, h.date ∈ dateSet p.2))) :=
  get_holidays_none_eq hEW

/-- Witness for C1 on the concrete store `storeA`. -/
theorem get_holidays_common_spec_witness :
    get_holidays storeA none none =
      .ok (ewA.filter (fun h => decide (∀ p ∈ storeA, h.date ∈ dateSet p.2))) :=
  get_holidays_common_spec storeA ewA (by decide)

/-- C10.  Falsy arguments are treated as absent: the empty-string division
selects the common branch exactly like `None`, and `year=0` applies no year
filter at all. -/
theorem get_holidays_falsy_args (store : Store) (dv : Option String) (year : Option Int) :
    get_holidays store (some "") year = get_holidays store none year ∧
    get_holidays store dv (some 0) = get_holidays store dv none := by
  refine ⟨by simp [get_holidays, baseHolidays], ?_⟩
  unfold get_holidays
  cases hb : baseHolidays store dv <;> simp [hb, Except.map, applyYearFilter]

/-- C8.  When the network fetch fails with a transport error or its body is
not JSON, construction falls back to the bundled snapshot without raising:
the chosen raw data, and therefore the constructed store, are the same as
with `use_cached_holidays=True`. -/
theorem construction_falls_back (backup : List (String × List BankHoliday))
    (e : FetchError) (fetch : Except FetchError (List (String × List BankHoliday))) :
    loadData _ false (.error e) backup = loadData _ true fetch backup ∧
    constructStore false (.error e) backup = constructStore true fetch backup :=
  ⟨rfl, rfl⟩

/-- C7 counterexample.  On a store missing Northern Ireland, an unrecognized
division string and the recognized-but-absent division raise errors of the
same kind (`KeyError`), and neither is an invalid-argument (`ValueError`)
error — the claimed distinction in kind does not exist in the code. -/
theorem division_errors_same_kind_counterexample :
    get_holidays storeEW2 (some "not-a-real-division") none =
      .error (.keyError "not-a-real-division") ∧
    get_holidays storeEW2 (some "northern-ireland") none =
      .error (.keyError "northern-ireland") ∧
    (PyError.keyError "not-a-real-division").kind = (PyError.keyError "northern-ireland").kind ∧
    (PyError.keyError "not-a-real-division").kind ≠ PyErrorKind.valueError := by
  refine ⟨by decide, by decide, rfl, by decide⟩

/-- C7 amended.  A query with any truthy division identifier that is not a
key of the loaded store — an unrecognized identifier or a recognized division
with no data alike — raises a `KeyError` naming the identifier, rather than
returning an empty list; the two cases are not distinguished by error kind. -/
theorem get_holidays_missing_division (store : Store) (dv : String) (year : Option Int)
    (hne : dv ≠ "") (hmiss : lookupDiv store dv = none) :
    get_holidays store (some dv) year = .error (.keyError dv) := by
  simp [get_holidays, baseHolidays, hne, hmiss, Except.map]

/-- Witness for the amended C7 on the concrete store `storeEW2`. -/
theorem get_holidays_missing_division_witness :
    get_holidays storeEW2 (some "not-a-real-division") none =
      .error (.keyError "not-a-real-division") :=
  get_holidays_missing_division storeEW2 "not-a-real-division" none (by decide) (by decide)

/-- C2 counterexample.  A constructed instance (duplicate dates in the raw
England-and-Wales events survive construction: nothing deduplicates) whose
common holiday list holds two holidays with the same date, refuting the
no-two-holidays-share-a-date part of the claim. -/
theorem common_dup_dates_counterexample :
    mkData storeDup = .ok storeDup ∧
    get_holidays storeDup none none = .ok [⟨"A", 8, "", false⟩, ⟨"B", 8, "", false⟩] ∧
    ¬ (([⟨"A", 8, "", false⟩, ⟨"B", 8, "", false⟩] : List BankHoliday).map
        (fun h => h.date)).Nodup := by
  refine ⟨by decide, by decide, by decide⟩

/-- C2 amended.  For every constructed instance and division `(dv, l)` present
in the store, the dates of the common list are a subset of `l`'s dates and
the common list is ordered ascending by date — unconditionally; when
additionally the England-and-Wales list holds no duplicate dates, the common
list is strictly ascending by date, hence never holds two holidays with the
same date. -/
theorem common_subsequence (data : List (String × List BankHoliday)) (store : Store)
    (dv : String) (l ew common : List BankHoliday)
    (hmk : mkData data = .ok store) (hdv : (dv, l) ∈ store)
    (hEW : lookupDiv store "england-and-wales" = some ew)
    (hc : get_holidays store none none = .ok common) :
    (∀ h ∈ common, h.date ∈ dateSet l) ∧
    (common.map (fun h => h.date)).Sorted (· ≤ ·) ∧
    ((ew.map (fun h => h.date)).Nodup →
      (common.map (fun h => h.date)).Sorted (· < ·)) := by
  rw [get_holidays_none_eq hEW] at hc
  simp only [Except.ok.injEq] at hc
  subst hc
  have hsorted : ew.Sorted holidayLE := mkData_sorted hmk (lookupDiv_mem hEW)
  have hsub : (ew.filter (fun h => decide (∀ p ∈ store, h.date ∈ dateSet p.2))).Sublist ew :=
    List.filter_sublist ew
  have hsorted2 : (ew.filter
      (fun h => decide (∀ p ∈ store, h.date ∈ dateSet p.2))).Sorted holidayLE :=
    List.Pairwise.sublist hsub hsorted
  have hle : ((ew.filter (fun h => decide (∀ p ∈ store, h.date ∈ dateSet p.2))).map
      (fun h => h.date)).Pairwise (· ≤ ·) :=
    List.pairwise_map.mpr hsorted2
  refine ⟨?_, hle, ?_⟩
  · intro h hmem
    have := List.of_mem_filter hmem
    simp only [decide_eq_true_eq] at this
    exact this (dv, l) hdv
  · intro hnd
    have hnd2 : ((ew.filter (fun h => decide (∀ p ∈ store, h.date ∈ dateSet p.2))).map
        (fun h => h.date)).Nodup :=
      List.Nodup.sublist (List.Sublist.map _ hsub) hnd
    exact (hle.and hnd2).imp (fun hab => lt_of_le_of_ne hab.1 hab.2)

/-- Witness for the amended C2: the common list of `storeA` is strictly
ascending by date. -/
theorem common_subsequence_witness :
    (commonA.map (fun h => h.date)).Sorted (· < ·) :=
  (common_subsequence storeA storeA "scotland" scoA ewA commonA
    (by decide) (by decide) (by decide) (by decide)).2.2 (by decide)

/-- The common branch produces a filter of the (sorted) England-and-Wales
list, so it is sorted. -/
lemma commonList_sorted {data : List (String × List BankHoliday)} {store : Store}
    {hs : List BankHoliday} (hmk : mkData data = .ok store)
    (h : commonList store = .ok hs) : hs.Sorted holidayLE := by
  unfold commonList at h
  cases hEW : lookupDiv store "england-and-wales" with
  | none => rw [hEW] at h; simp at h
  | some ew =>
    rw [hEW] at h
    cases hcd : commonDates store with
    | none => rw [hcd] at h; simp at h
    | some ds =>
      rw [hcd] at h
      simp only [Except.ok.injEq] at h
      subst h
      exact List.Pairwise.sublist (List.filter_sublist ew) (mkData_sorted hmk (lookupDiv_mem hEW))

/-- Every list returned by `get_holidays` on a constructed store is sorted
ascending by date. -/
lemma get_holidays_sorted {data : List (String × List BankHoliday)} {store : Store}
    {div : Option String} {y : Option Int} {hs : List BankHoliday}
    (hmk : mkData data = .ok store) (h : get_holidays store div y = .ok hs) :
    hs.Sorted holidayLE := by
  unfold get_holidays at h
  cases hb : baseHolidays store div with
  | error e => rw [hb] at h; simp [Except.map] at h
  | ok hs0 =>
    rw [hb] at h
    simp only [Except.map, Except.ok.injEq] at h
    have hsort0 : hs0.Sorted holidayLE := by
      cases div with
      | none => exact commonList_sorted hmk (baseHolidays_none store ▸ hb)
      | some dv =>
        rw [baseHolidays_some store dv] at hb
        by_cases he : dv = ""
        · rw [if_pos he] at hb
          exact commonList_sorted hmk hb
        · rw [if_neg he] at hb
          cases hl : lookupDiv store dv with
          | none => rw [hl] at hb; simp at hb
          | some hs1 =>
            rw [hl] at hb
            simp only [Except.ok.injEq] at hb
            subst hb
            exact mkData_sorted hmk (lookupDiv_mem hl)
    subst h
    cases y with
    | none => exact hsort0
    | some n =>
      by_cases h0 : n = 0
      · simpa [applyYearFilter, h0] using hsort0
      · simpa [applyYearFilter, h0] using
          List.Pairwise.sublist (List.filter_sublist hs0) hsort0

/-- The `for` loop of `get_next_holiday` returns the head of the list
filtered to dates strictly after `date`. -/
lemma firstAfter_eq_head_filter (d : Int) (l : List BankHoliday) :
    firstAfter d l = (l.filter (fun h => decide (d < h.date))).head? := by
  induction l with
  | nil => rfl
  | cons h t ih =>
    by_cases hd : d < h.date
    · simp [firstAfter, List.filter_cons, hd]
    · simp [firstAfter, List.filter_cons, hd, ih]

/-- C6.  On a constructed store, `get_next_holiday` returns the first holiday
of the division's (or common) ascending list whose date is strictly greater
than `d` — the head of the list filtered to dates after `d` — which has the
least such date; it returns `none` when no holiday after `d` remains. -/
theorem get_next_holiday_first (data : List (String × List BankHoliday)) (store : Store)
    (div : Option String) (d : Int) (hs : List BankHoliday)
    (hmk : mkData data = .ok store) (hdiv : get_holidays store div none = .ok hs) :
    get_next_holiday store div d = .ok ((hs.filter (fun x => decide (d < x.date))).head?) ∧
    (∀ h, (hs.filter (fun x => decide (d < x.date))).head? = some h →
      h ∈ hs ∧ d < h.date ∧ ∀ h2 ∈ hs, d < h2.date → h.date ≤ h2.date) ∧
    ((hs.filter (fun x => decide (d < x.date))).head? = none → ∀ h2 ∈ hs, h2.date ≤ d) := by
  refine ⟨?_, ?_, ?_⟩
  · unfold get_next_holiday
    rw [hdiv]
    simp only [Except.map, Except.ok.injEq]
    exact firstAfter_eq_head_filter d hs
  · intro h hh
    have hsorted := get_holidays_sorted hmk hdiv
    cases hf : hs.filter (fun x => decide (d < x.date)) with
    | nil => rw [hf] at hh; simp at hh
    | cons h0 t =>
      rw [hf] at hh
      simp only [List.head?_cons, Option.some.injEq] at hh
      subst hh
      have hm0 : h0 ∈ hs.filter (fun x => decide (d < x.date)) := by
        rw [hf]
        exact List.mem_cons_self h0 t
      have hmem : h0 ∈ hs := List.mem_of_mem_filter hm0
      have hlt : d < h0.date := by
        have := List.of_mem_filter hm0
        simpa using this
      refine ⟨hmem, hlt, ?_⟩
      intro h2 hmem2 hlt2
      have h2f : h2 ∈ hs.filter (fun x => decide (d < x.date)) :=
        List.mem_filter.mpr ⟨hmem2, by simpa using hlt2⟩
      rw [hf] at h2f
      have hfs : (h0 :: t).Sorted holidayLE := by
        rw [← hf]
        exact List.Pairwise.sublist (List.filter_sublist hs) hsorted
      rcases List.mem_cons.mp h2f with he | ht
      · exact le_of_eq (congrArg BankHoliday.date he.symm)
      · exact (List.pairwise_cons.mp hfs).1 h2 ht
  · intro hnone h2 hmem2
    by_contra hgt
    push_neg at hgt
    have h2f : h2 ∈ hs.filter (fun x => decide (d < x.date)) :=
      List.mem_filter.mpr ⟨hmem2, by simpa using hgt⟩
    rw [List.head?_eq_none_iff] at hnone
    rw [hnone] at h2f
    exact absurd h2f (List.not_mem_nil h2)

/-- Witness for C6: the next Scotland holiday strictly after date 8 in
`storeA`. -/
theorem get_next_holiday_first_witness :
    get_next_holiday storeA (some "scotland") 8 =
      .ok ((scoA.filter (fun x => decide ((8 : Int) < x.date))).head?) :=
  (get_next_holiday_first storeA storeA (some "scotland") 8 scoA (by decide) (by decide)).1

/-! ### The memoization cache is sound: cached sets equal recomputation -/

/-- Invariant of the memoization cache: every entry stores exactly the date
set of the corresponding `get_holidays` call. -/
def CacheOK (store : Store) (c : Cache) : Prop :=
  ∀ p ∈ c, ∃ hs, get_holidays store p.1 none = .ok hs ∧ p.2 = dateSet hs

/-- The empty cache (a fresh instance) satisfies the invariant. -/
lemma cacheOK_nil (store : Store) : CacheOK store [] := by
  intro p hp
  exact absurd hp (List.not_mem_nil p)

/-- `_get_known_holiday_date_set` preserves the cache invariant. -/
lemma cacheOK_getKnown {store : Store} {c : Cache} {div : Option String} {s : Finset Int}
    {c2 : Cache} (hok : CacheOK store c)
    (h : get_known_holiday_date_set store c div = .ok (s, c2)) : CacheOK store c2 := by
  unfold get_known_holiday_date_set at h
  cases hl : lookupCache c div with
  | some s0 =>
    rw [hl] at h
    simp only [Except.ok.injEq, Prod.mk.injEq] at h
    rw [← h.2]
    exact hok
  | none =>
    rw [hl] at h
    cases hg : get_holidays store div none with
    | error e => rw [hg] at h; simp at h
    | ok hs =>
      rw [hg] at h
      simp only [Except.ok.injEq, Prod.mk.injEq] at h
      rw [← h.2]
      intro p hp
      rcases List.mem_cons.mp hp with he | hmem
      · subst he
        exact ⟨hs, hg, rfl⟩
      · exact hok p hmem

/-- A single query step preserves the cache invariant. -/
lemma cacheOK_step {store : Store} {c : Cache} (div : Option String) (hok : CacheOK store c) :
    CacheOK store (cacheStep store c div) := by
  unfold cacheStep
  cases h : get_known_holiday_date_set store c div with
  | error e => exact hok
  | ok sc =>
    obtain ⟨s, c2⟩ := sc
    exact cacheOK_getKnown hok h

/-- Any cache reachable by a sequence of prior queries satisfies the
invariant. -/
lemma cacheOK_cacheAfter (store : Store) (calls : List (Option String)) :
    CacheOK store (cacheAfter store calls) := by
  suffices hgen : ∀ c, CacheOK store c → CacheOK store (calls.foldl (cacheStep store) c) from
    hgen [] (cacheOK_nil store)
  induction calls with
  | nil => exact fun c hc => hc
  | cons q rest ih => exact fun c hc => ih (cacheStep store c q) (cacheOK_step q hc)

/-- On a cache satisfying the invariant, `_get_known_holiday_date_set`
returns exactly the date set that recomputing via `get_holidays` would
give, and propagates exactly the error that `get_holidays` would raise. -/
lemma getKnown_spec {store : Store} {c : Cache} (div : Option String) (hok : CacheOK store c) :
    ∃ c2, get_known_holiday_date_set store c div =
      (get_holidays store div none).map (fun hs => (dateSet hs, c2)) := by
  unfold get_known_holiday_date_set
  cases hl : lookupCache c div with
  | some s =>
    obtain ⟨hs, hg, hset⟩ := hok (div, s) (lookupCache_mem hl)
    dsimp only at hg hset
    refine ⟨c, ?_⟩
    rw [hg, hset]
    rfl
  | none =>
    cases hg : get_holidays store div none with
    | error e => exact ⟨c, rfl⟩
    | ok hs => exact ⟨(div, dateSet hs) :: c, rfl⟩

/-- C9.  After any sequence of prior queries, `is_holiday(d, division)`
returns exactly membership of `d` in the date set of
`get_holidays(division)` recomputed from scratch (and raises exactly when it
raises): the lazily populated cache never changes a query result. -/
theorem is_holiday_refines (store : Store) (calls : List (Option String))
    (div : Option String) (d : Int) :
    (is_holiday store (cacheAfter store calls) d div).map Prod.fst
      = (get_holidays store div none).map (fun hs => decide (d ∈ dateSet hs)) := by
  obtain ⟨c2, hK⟩ := getKnown_spec div (cacheOK_cacheAfter store calls)
  unfold is_holiday
  rw [hK]
  cases hg : get_holidays store div none <;> simp [Except.map]

/-- C3.  After any sequence of prior queries, `is_work_day(d, division)`
returns a boolean that is `false` exactly when `d`'s weekday lies in the
configured weekend set or `d` is a holiday date of that division (the date
set of `get_holidays(division)`), and `true` otherwise. -/
theorem is_work_day_spec (weekend : Finset Int) (store : Store) (calls : List (Option String))
    (div : Option String) (d : Int) (hs : List BankHoliday)
    (hdiv : get_holidays store div none = .ok hs) :
    ∃ b c, is_work_day weekend store (cacheAfter store calls) d div = .ok (b, c) ∧
      (b = false ↔ (weekday d ∈ weekend ∨ d ∈ dateSet hs)) := by
  obtain ⟨c2, hK⟩ := getKnown_spec div (cacheOK_cacheAfter store calls)
  rw [hdiv] at hK
  unfold is_work_day
  by_cases hw : weekday d ∈ weekend
  · exact ⟨false, cacheAfter store calls, by rw [if_pos hw], by simp [hw]⟩
  · rw [if_neg hw, hK]
    refine ⟨decide (d ∉ dateSet hs), c2, rfl, ?_⟩
    simp [hw]

/-- Witness for C3: date 13 is a Saturday (weekday 5), so it is not a work
day under the default weekend. -/
theorem is_work_day_spec_witness :
    ∃ b c, is_work_day weekendW storeA (cacheAfter storeA []) 13 none = .ok (b, c) ∧
      (b = false ↔ (weekday 13 ∈ weekendW ∨ (13 : Int) ∈ dateSet commonA)) :=
  is_work_day_spec weekendW storeA [] none 13 commonA (by decide)

/-- `_get_known_holiday_date_set` is idempotent: re-running it on the cache
it produced returns the same set and the same cache. -/
lemma getKnown_idem {store : Store} {c : Cache} {div : Option String} {s : Finset Int}
    {c2 : Cache} (h : get_known_holiday_date_set store c div = .ok (s, c2)) :
    get_known_holiday_date_set store c2 div = .ok (s, c2) := by
  unfold get_known_holiday_date_set at h ⊢
  cases hl : lookupCache c div with
  | some s0 =>
    rw [hl] at h
    simp only [Except.ok.injEq, Prod.mk.injEq] at h
    obtain ⟨h1, h2⟩ := h
    subst h1
    subst h2
    rw [hl]
  | none =>
    rw [hl] at h
    cases hg : get_holidays store div none with
    | error e => rw [hg] at h; simp at h
    | ok hs =>
      rw [hg] at h
      simp only [Except.ok.injEq, Prod.mk.injEq] at h
      obtain ⟨h1, h2⟩ := h
      subst h1
      rw [← h2]
      have : lookupCache ((div, dateSet hs) :: c) div = some (dateSet hs) := by
        simp [lookupCache, List.find?_cons]
      rw [this]

/-- `is_work_day` answering `true` is stable: re-running it on the cache it
produced gives `true` again with the same cache. -/
lemma is_work_day_idem {weekend : Finset Int} {store : Store} {c : Cache} {d : Int}
    {div : Option String} {c2 : Cache}
    (h : is_work_day weekend store c d div = .ok (true, c2)) :
    is_work_day weekend store c2 d div = .ok (true, c2) := by
  unfold is_work_day at h ⊢
  by_cases hw : weekday d ∈ weekend
  · rw [if_pos hw] at h
    simp at h
  · rw [if_neg hw] at h ⊢
    cases hK : get_known_holiday_date_set store c div with
    | error e => rw [hK] at h; simp at h
    | ok sc =>
      obtain ⟨s, c3⟩ := sc
      rw [hK] at h
      simp only [Except.ok.injEq, Prod.mk.injEq] at h
      obtain ⟨h1, h2⟩ := h
      subst h2
      rw [getKnown_idem hK]
      simp [h1]

/-- Partial correctness of the `get_next_work_day` loop: a returned date is
strictly later than the start and satisfies `is_work_day`. -/
lemma next_work_day_sound {weekend : Finset Int} {store : Store} {div : Option String}
    {r : Int} {c : Cache} :
    ∀ (n : Nat) (cache : Cache) (d : Int),
      get_next_work_day weekend store cache div d n = .ok (some (r, c)) →
      d < r ∧ is_work_day weekend store c r div = .ok (true, c) := by
  intro n
  induction n with
  | zero => intro cache d h; simp [get_next_work_day] at h
  | succ m ih =>
    intro cache d h
    unfold get_next_work_day at h
    cases hw : is_work_day weekend store cache (d + 1) div with
    | error e => rw [hw] at h; simp at h
    | ok bc =>
      obtain ⟨b, c3⟩ := bc
      rw [hw] at h
      cases b with
      | true =>
        simp only [Except.ok.injEq, Option.some.injEq, Prod.mk.injEq] at h
        obtain ⟨h1, h2⟩ := h
        subst h2
        subst h1
        exact ⟨lt_add_one d, is_work_day_idem hw⟩
      | false =>
        obtain ⟨hlt, hwd⟩ := ih c3 (d + 1) h
        exact ⟨lt_trans (lt_add_one d) hlt, hwd⟩

/-- Partial correctness of the `get_prev_work_day` loop, symmetric to
`next_work_day_sound`. -/
lemma prev_work_day_sound {weekend : Finset Int} {store : Store} {div : Option String}
    {r : Int} {c : Cache} :
    ∀ (n : Nat) (cache : Cache) (d : Int),
      get_prev_work_day weekend store cache div d n = .ok (some (r, c)) →
      r < d ∧ is_work_day weekend store c r div = .ok (true, c) := by
  intro n
  induction n with
  | zero => intro cache d h; simp [get_prev_work_day] at h
  | succ m ih =>
    intro cache d h
    unfold get_prev_work_day at h
    cases hw : is_work_day weekend store cache (d - 1) div with
    | error e => rw [hw] at h; simp at h
    | ok bc =>
      obtain ⟨b, c3⟩ := bc
      rw [hw] at h
      cases b with
      | true =>
        simp only [Except.ok.injEq, Option.some.injEq, Prod.mk.injEq] at h
        obtain ⟨h1, h2⟩ := h
        subst h2
        subst h1
        exact ⟨sub_one_lt d, is_work_day_idem hw⟩
      | false =>
        obtain ⟨hlt, hwd⟩ := ih c3 (d - 1) h
        exact ⟨lt_trans hlt (sub_one_lt d), hwd⟩

/-- C4.  Whenever `get_next_work_day` starting from `d` returns a date `r`,
then `d < r` and `is_work_day(r)` holds for that division; symmetrically,
a date returned by `get_prev_work_day` is strictly earlier than `d` and
satisfies `is_work_day`. -/
theorem work_day_step_sound (weekend : Finset Int) (store : Store) (cache : Cache)
    (div : Option String) (d : Int) (n : Nat) (r : Int) (c : Cache) :
    (get_next_work_day weekend store cache div d n = .ok (some (r, c)) →
      d < r ∧ is_work_day weekend store c r div = .ok (true, c)) ∧
    (get_prev_work_day weekend store cache div d n = .ok (some (r, c)) →
      r < d ∧ is_work_day weekend store c r div = .ok (true, c)) :=
  ⟨next_work_day_sound n cache d, prev_work_day_sound n cache d⟩

/-- Witness for C4: concrete next and previous work-day searches on `storeA`
with the default weekend. -/
theorem work_day_step_sound_witness :
    (((8 : Int) < 9 ∧ is_work_day weekendW storeA cacheW 9 none = .ok (true, cacheW)) ∧
     ((9 : Int) < 10 ∧ is_work_day weekendW storeA cacheW 9 none = .ok (true, cacheW))) :=
  ⟨(work_day_step_sound weekendW storeA [] none 8 1 9 cacheW).1 (by decide),
   (work_day_step_sound weekendW storeA [] none 10 1 9 cacheW).2 (by decide)⟩

/-- One unfolding step of the fuelled `get_next_work_day`. -/
lemma get_next_work_day_succ (weekend : Finset Int) (store : Store) (cache : Cache)
    (div : Option String) (d : Int) (fuel : Nat) :
    get_next_work_day weekend store cache div d (fuel + 1) =
      match is_work_day weekend store cache (d + 1) div with
      | .error e => .error e
      | .ok (true, c) => .ok (some (d + 1, c))
      | .ok (false, c) => get_next_work_day weekend store c div (d + 1) fuel := rfl

/-- One unfolding step of the fuelled `get_prev_work_day`. -/
lemma get_prev_work_day_succ (weekend : Finset Int) (store : Store) (cache : Cache)
    (div : Option String) (d : Int) (fuel : Nat) :
    get_prev_work_day weekend store cache div d (fuel + 1) =
      match is_work_day weekend store cache (d - 1) div with
      | .error e => .error e
      | .ok (true, c) => .ok (some (d - 1, c))
      | .ok (false, c) => get_prev_work_day weekend store c div (d - 1) fuel := rfl

/-- One unfolding step of the pure forward loop. -/
lemma nextLoop_succ (weekend s : Finset Int) (d : Int) (fuel : Nat) :
    nextLoop weekend s d (fuel + 1) =
      if workDayPred weekend s (d + 1) = true then some (d + 1)
      else nextLoop weekend s (d + 1) fuel := rfl

/-- One unfolding step of the pure backward loop. -/
lemma prevLoop_succ (weekend s : Finset Int) (d : Int) (fuel : Nat) :
    prevLoop weekend s d (fuel + 1) =
      if workDayPred weekend s (d - 1) = true then some (d - 1)
      else prevLoop weekend s (d - 1) fuel := rfl

/-- Once the division's date set is cached (or computable), the stateful
next-work-day loop agrees with the pure loop over that fixed set. -/
lemma next_loop_pure {weekend : Finset Int} {store : Store} {div : Option String}
    {s : Finset Int} {c : Cache} :
    ∀ (n : Nat) (cur : Cache) (d : Int),
      get_known_holiday_date_set store cur div = .ok (s, c) →
      get_next_work_day weekend store cur div d n =
        .ok ((nextLoop weekend s d n).map (fun r => (r, c))) := by
  intro n
  induction n with
  | zero => intro cur d _; rfl
  | succ m ih =>
    intro cur d hcur
    rw [get_next_work_day_succ, nextLoop_succ]
    by_cases hw : weekday (d + 1) ∈ weekend
    · have hiw : is_work_day weekend store cur (d + 1) div = .ok (false, cur) := by
        unfold is_work_day
        rw [if_pos hw]
      have hp : workDayPred weekend s (d + 1) = false := by
        simp [workDayPred, hw]
      rw [hiw, hp]
      dsimp only
      rw [ih cur (d + 1) hcur]
      simp
    · have hiw : is_work_day weekend store cur (d + 1) div =
          .ok (decide ((d + 1) ∉ s), c) := by
        unfold is_work_day
        rw [if_neg hw, hcur]
      by_cases hin : (d + 1) ∈ s
      · have hp : workDayPred weekend s (d + 1) = false := by
          simp [workDayPred, hin]
        have hd : decide ((d + 1) ∉ s) = false := by simp [hin]
        rw [hiw, hd, hp]
        dsimp only
        rw [ih c (d + 1) (getKnown_idem hcur)]
        simp
      · have hp : workDayPred weekend s (d + 1) = true := by
          simp [workDayPred, hw, hin]
        have hd : decide ((d + 1) ∉ s) = true := by simp [hin]
        rw [hiw, hd, hp]
        simp

/-- Once the division's date set is cached (or computable), the stateful
previous-work-day loop agrees with the pure loop over that fixed set. -/
lemma prev_loop_pure {weekend : Finset Int} {store : Store} {div : Option String}
    {s : Finset Int} {c : Cache} :
    ∀ (n : Nat) (cur : Cache) (d : Int),
      get_known_holiday_date_set store cur div = .ok (s, c) →
      get_prev_work_day weekend store cur div d n =
        .ok ((prevLoop weekend s d n).map (fun r => (r, c))) := by
  intro n
  induction n with
  | zero => intro cur d _; rfl
  | succ m ih =>
    intro cur d hcur
    rw [get_prev_work_day_succ, prevLoop_succ]
    by_cases hw : weekday (d - 1) ∈ weekend
    · have hiw : is_work_day weekend store cur (d - 1) div = .ok (false, cur) := by
        unfold is_work_day
        rw [if_pos hw]
      have hp : workDayPred weekend s (d - 1) = false := by
        simp [workDayPred, hw]
      rw [hiw, hp]
      dsimp only
      rw [ih cur (d - 1) hcur]
      simp
    · have hiw : is_work_day weekend store cur (d - 1) div =
          .ok (decide ((d - 1) ∉ s), c) := by
        unfold is_work_day
        rw [if_neg hw, hcur]
      by_cases hin : (d - 1) ∈ s
      · have hp : workDayPred weekend s (d - 1) = false := by
          simp [workDayPred, hin]
        have hd : decide ((d - 1) ∉ s) = false := by simp [hin]
        rw [hiw, hd, hp]
        dsimp only
        rw [ih c (d - 1) (getKnown_idem hcur)]
        simp
      · have hp : workDayPred weekend s (d - 1) = true := by
          simp [workDayPred, hw, hin]
        have hd : decide ((d - 1) ∉ s) = true := by simp [hin]
        rw [hiw, hd, hp]
        simp

/-- The pure forward loop succeeds as soon as some work day lies within
reach of the fuel. -/
lemma nextLoop_some (weekend s : Finset Int) :
    ∀ (n : Nat) (d e : Int), d < e → e ≤ d + n → workDayPred weekend s e = true →
      ∃ r, nextLoop weekend s d n = some r := by
  intro n
  induction n with
  | zero =>
    intro d e h1 h2 _
    exfalso
    omega
  | succ m ih =>
    intro d e h1 h2 hp
    unfold nextLoop
    by_cases hd : workDayPred weekend s (d + 1) = true
    · rw [if_pos hd]
      exact ⟨d + 1, rfl⟩
    · rw [if_neg hd]
      have hne : e ≠ d + 1 := fun he => hd (he ▸ hp)
      exact ih (d + 1) e (by omega) (by omega) hp

/-- The pure backward loop succeeds as soon as some work day lies within
reach of the fuel. -/
lemma prevLoop_some (weekend s : Finset Int) :
    ∀ (n : Nat) (d e : Int), e < d → d ≤ e + n → workDayPred weekend s e = true →
      ∃ r, prevLoop weekend s d n = some r := by
  intro n
  induction n with
  | zero =>
    intro d e h1 h2 _
    exfalso
    omega
  | succ m ih =>
    intro d e h1 h2 hp
    unfold prevLoop
    by_cases hd : workDayPred weekend s (d - 1) = true
    · rw [if_pos hd]
      exact ⟨d - 1, rfl⟩
    · rw [if_neg hd]
      have hne : e ≠ d - 1 := fun he => hd (he ▸ hp)
      exact ih (d - 1) e (by omega) (by omega) hp

/-- With one non-weekend weekday and a finite holiday set, a work day exists
strictly above any date. -/
lemma exists_work_day_above (weekend : Finset Int) (s : Finset Int) (d : Int)
    (hw : ∃ w : Int, 0 ≤ w ∧ w < 7 ∧ w ∉ weekend) :
    ∃ e, d < e ∧ workDayPred weekend s e = true := by
  obtain ⟨w, hw0, hw7, hwn⟩ := hw
  have hne : (insert d s).Nonempty := ⟨d, Finset.mem_insert_self d s⟩
  set B := (insert d s).max' hne with hB
  have hdB : d ≤ B := Finset.le_max' _ d (Finset.mem_insert_self d s)
  have hsB : ∀ x ∈ s, x ≤ B := fun x hx => Finset.le_max' _ x (Finset.mem_insert_of_mem hx)
  have hm0 : (0 : Int) ≤ (w - B) % 7 := Int.emod_nonneg _ (by norm_num)
  have hm7 : (w - B) % 7 < 7 := Int.emod_lt_of_pos _ (by norm_num)
  refine ⟨B + 1 + (w - B) % 7, by omega, ?_⟩
  have hweek : weekday (B + 1 + (w - B) % 7) = w := by
    unfold weekday
    omega
  have hnotin : B + 1 + (w - B) % 7 ∉ s := fun hmem => by
    have := hsB _ hmem
    omega
  simp [workDayPred, hweek, hwn, hnotin]

/-- With one non-weekend weekday and a finite holiday set, a work day exists
strictly below any date. -/
lemma exists_work_day_below (weekend : Finset Int) (s : Finset Int) (d : Int)
    (hw : ∃ w : Int, 0 ≤ w ∧ w < 7 ∧ w ∉ weekend) :
    ∃ e, e < d ∧ workDayPred weekend s e = true := by
  obtain ⟨w, hw0, hw7, hwn⟩ := hw
  have hne : (insert d s).Nonempty := ⟨d, Finset.mem_insert_self d s⟩
  set B := (insert d s).min' hne with hB
  have hBd : B ≤ d := Finset.min'_le _ d (Finset.mem_insert_self d s)
  have hsB : ∀ x ∈ s, B ≤ x := fun x hx => Finset.min'_le _ x (Finset.mem_insert_of_mem hx)
  have hm0 : (0 : Int) ≤ (B - 2 - w) % 7 := Int.emod_nonneg _ (by norm_num)
  have hm7 : (B - 2 - w) % 7 < 7 := Int.emod_lt_of_pos _ (by norm_num)
  refine ⟨B - 1 - (B - 2 - w) % 7, by omega, ?_⟩
  have hweek : weekday (B - 1 - (B - 2 - w) % 7) = w := by
    unfold weekday
    omega
  have hnotin : B - 1 - (B - 2 - w) % 7 ∉ s := fun hmem => by
    have := hsB _ hmem
    omega
  simp [workDayPred, hweek, hwn, hnotin]

/-- C5.  When the division's date set resolves (the stored holiday set is a
finite set by construction) and at least one weekday index 0-6 is missing
from the weekend set, both work-day stepping loops terminate: some fuel
makes `get_next_work_day` and `get_prev_work_day` return a date. -/
theorem work_day_search_terminates (weekend : Finset Int) (store : Store) (cache : Cache)
    (div : Option String) (d : Int) (s : Finset Int) (c : Cache)
    (hset : get_known_holiday_date_set store cache div = .ok (s, c))
    (hw : ∃ w : Int, 0 ≤ w ∧ w < 7 ∧ w ∉ weekend) :
    (∃ n r, get_next_work_day weekend store cache div d n = .ok (some (r, c))) ∧
    (∃ n r, get_prev_work_day weekend store cache div d n = .ok (some (r, c))) := by
  constructor
  · obtain ⟨e, hde, hpe⟩ := exists_work_day_above weekend s d hw
    obtain ⟨r, hr⟩ := nextLoop_some weekend s (e - d).toNat d e hde (by omega) hpe
    refine ⟨(e - d).toNat, r, ?_⟩
    rw [next_loop_pure _ cache d hset, hr]
    rfl
  · obtain ⟨e, hed, hpe⟩ := exists_work_day_below weekend s d hw
    obtain ⟨r, hr⟩ := prevLoop_some weekend s (d - e).toNat d e hed (by omega) hpe
    refine ⟨(d - e).toNat, r, ?_⟩
    rw [prev_loop_pure _ cache d hset, hr]
    rfl

/-- Witness for C5 on `storeA` with the default weekend. -/
theorem work_day_search_terminates_witness :
    (∃ n r, get_next_work_day weekendW storeA [] none 8 n = .ok (some (r, cacheW))) ∧
    (∃ n r, get_prev_work_day weekendW storeA [] none 8 n = .ok (some (r, cacheW))) :=
  work_day_search_terminates weekendW storeA [] none 8 ({8, 22} : Finset Int) cacheW
    (by decide) ⟨0, by decide⟩
